import Mathlib

/-!
Verification development for the josh filter engine (`src/bin/josh-filter.rs`
and, where the engine library is not part of the sources, models built from
the specification).  Commits, trees and blobs are content-addressed, so a
commit value is identified with its content: `GCommit` below is both the
commit object and its id.
-/

set_option autoImplicit false

namespace Josh

/-! ## Character-list utilities

These model the string operations used by the source: Rust's
`str::splitn(2, sep)`, `str::trim`, `str::replace`, and prefix stripping.
-/

/-- Model of Rust `splitn(2, sep)`: returns the piece before the first
separator and, when a separator exists, the remainder after it. -/
def splitn2 (sep : Char) : List Char → List Char × Option (List Char)
  | [] => ([], none)
  | c :: rest =>
    if c = sep then ([], some rest)
    else
      let (a, b) := splitn2 sep rest
      (c :: a, b)

/-- Full split on a separator character (Rust `str::split`). -/
def splitChar (sep : Char) : List Char → List (List Char)
  | [] => [[]]
  | c :: rest =>
    if c = sep then [] :: splitChar sep rest
    else
      match splitChar sep rest with
      | [] => [[c]]
      | s :: ss => (c :: s) :: ss

/-- ASCII whitespace test; Rust `str::trim` strips Unicode whitespace, of
which only these occur in the inputs the binary handles. -/
def isWsChar (c : Char) : Bool :=
  c = ' ' || c = '\t' || c = '\n' || c = '\r'

/-- Model of Rust `str::trim`. -/
def trimChars (cs : List Char) : List Char :=
  ((cs.dropWhile isWsChar).reverse.dropWhile isWsChar).reverse

/-- Strip a literal character-list prefix, returning the remainder. -/
def dropPre : List Char → List Char → Option (List Char)
  | [], s => some s
  | _, [] => none
  | p :: ps, c :: cs => if p = c then dropPre ps cs else none

/-- Model of Rust `str::replace` for a single-character pattern: every
occurrence of `c` is replaced by `r`. -/
def replChar (c : Char) (r : List Char) : List Char → List Char
  | [] => []
  | x :: xs => if x = c then r ++ replChar c r xs else x :: replChar c r xs

/-- String wrapper for `trimChars`. -/
def strTrim (s : String) : String := String.mk (trimChars s.data)

/-- String wrapper for `dropPre`: strips the prefix `p` from `s`. -/
def strPre (p s : String) : Option String :=
  match dropPre p.data s.data with
  | some r => some (String.mk r)
  | none => none

/-- String wrapper for `replChar`. -/
def strRepl (c : Char) (r : String) (s : String) : String :=
  String.mk (replChar c r.data s.data)

/-! ## Data model

Trees are flat maps from full paths to blob contents (the object store is
content-addressed, so blob content stands for blob id).  A commit is its
content: tree, parent commits, and author/committer/message metadata
collapsed into one string. -/

/-- A tree: list of (path, blob content) entries. -/
abbrev TreeT := List (String × String)

/-- A commit object; being content-addressed, the value is also the id. -/
inductive GCommit where
  | mk : TreeT → List GCommit → String → GCommit

mutual
/-- Decidable equality of commits. -/
def GCommit.decEq : (a b : GCommit) → Decidable (a = b)
  | .mk t ps m, .mk t' ps' m' =>
    if h1 : t = t' then
      if h3 : m = m' then
        match GCommit.decEqList ps ps' with
        | isTrue h2 => isTrue (by rw [h1, h2, h3])
        | isFalse h => isFalse (fun hh => by cases hh; exact h rfl)
      else isFalse (fun hh => by cases hh; exact h3 rfl)
    else isFalse (fun hh => by cases hh; exact h1 rfl)
/-- Decidable equality of commit lists. -/
def GCommit.decEqList : (as bs : List GCommit) → Decidable (as = bs)
  | [], [] => isTrue rfl
  | [], _ :: _ => isFalse (fun hh => by cases hh)
  | _ :: _, [] => isFalse (fun hh => by cases hh)
  | a :: as, b :: bs =>
    match GCommit.decEq a b with
    | isTrue h1 =>
      match GCommit.decEqList as bs with
      | isTrue h2 => isTrue (by rw [h1, h2])
      | isFalse h => isFalse (fun hh => by cases hh; exact h rfl)
    | isFalse h => isFalse (fun hh => by cases hh; exact h rfl)
end

instance : DecidableEq GCommit := GCommit.decEq

/-- Tree of a commit. -/
def GCommit.tree : GCommit → TreeT
  | .mk t _ _ => t

/-- Parent list of a commit. -/
def GCommit.parents : GCommit → List GCommit
  | .mk _ ps _ => ps

/-- Metadata (author/committer/message) of a commit. -/
def GCommit.meta : GCommit → String
  | .mk _ _ m => m

/-- The filter tree ("View") of spec section 3: a closed tagged variant of
transform nodes.  `chain outer inner` is sequential composition applying
`inner` first, then `outer` (spec: `Chain(outer, inner)`).  A workspace
member keeps its mount path, its nested spec text (exposed by `prefixes`)
and its parsed nested view.  `pfx` is the spec's `Prefix(path)` node. -/
inductive View where
  | subdir : String → View
  | pfx : String → View
  | rename : List (String × String) → View
  | exclude : List String → View
  | workspace : List (String × String × View) → View
  | info : String → String → String → View
  | cutoff : String → View
  | chain : View → View → View

mutual
/-- Canonical textual form of a filter tree, its stable fingerprint: the
spec's `filter_identity` (spec section 3, ViewMaps entry). -/
def viewId : View → String
  | .subdir p => ":subdir=" ++ p
  | .pfx p => ":prefix=" ++ p
  | .rename rs => ":rename=" ++ String.intercalate ";" (rs.map (fun e => e.1 ++ ">" ++ e.2))
  | .exclude gs => ":exclude=" ++ String.intercalate ";" gs
  | .workspace ws => ":workspace=" ++ viewIdWs ws
  | .info p s v => ":info=" ++ p ++ ",src=" ++ s ++ ",view=" ++ v
  | .cutoff r => ":cutoff=" ++ r
  | .chain outer inner => viewId inner ++ viewId outer
/-- Fingerprints of workspace members. -/
def viewIdWs : List (String × String × View) → String
  | [] => ""
  | (m, _, v) :: rest => m ++ "(" ++ viewId v ++ ")" ++ viewIdWs rest
end

/-- Path of the provenance entry an `info` node adds under its mount
point. -/
def infoPath (p : String) : String := p ++ "/.joshinfo"

/-- Rename a path by the first matching (from, to) pair; path-glob matching
is modelled as path-prefix matching. -/
def renamePath : List (String × String) → String → String
  | [], q => q
  | (f, t) :: rest, q =>
    match strPre (f ++ "/") q with
    | some r => t ++ "/" ++ r
    | none => if q = f then t else renamePath rest q

/-- Path-glob matching of the `Exclude` node, modelled as exact match or
directory-prefix match. -/
def globMatch (g q : String) : Bool :=
  q = g || (strPre (g ++ "/") q).isSome

mutual
/-- Forward tree transform of a filter node (spec sections 3 and 4.2): a pure
function of the input tree and the node's parameters. -/
def applyView : View → TreeT → TreeT
  | .subdir p, t => t.filterMap (fun e => (strPre (p ++ "/") e.1).map (fun q => (q, e.2)))
  | .pfx p, t => t.map (fun e => (p ++ "/" ++ e.1, e.2))
  | .rename rs, t => t.map (fun e => (renamePath rs e.1, e.2))
  | .exclude gs, t => t.filter (fun e => !(gs.any (fun g => globMatch g e.1)))
  | .workspace ws, t => applyWs ws t
  | .info p s v, t => t ++ [(infoPath p, "src=" ++ s ++ ";view=" ++ v)]
  | .cutoff _, t => t
  | .chain outer inner, t => applyView outer (applyView inner t)
/-- Workspace members: each nested view's result is mounted under its mount
path and the sub-trees are concatenated. -/
def applyWs : List (String × String × View) → TreeT → TreeT
  | [], _ => []
  | (m, _, v) :: rest, t =>
    (applyView v t).map (fun e => (m ++ "/" ++ e.1, e.2)) ++ applyWs rest t
end

mutual
/-- Inverse path routing (spec section 4.3 step 3): expresses a
filtered-coordinate path in original coordinates; `none` means the path is
not written back (provenance entries of an `info` node are discarded). -/
def unapplyPath : View → String → Option String
  | .subdir p, q => some (p ++ "/" ++ q)
  | .pfx p, q => strPre (p ++ "/") q
  | .rename rs, q => some (renamePath (rs.map (fun e => (e.2, e.1))) q)
  | .exclude _, q => some q
  | .workspace ws, q => unapplyWs ws q
  | .info p _ _, q => if q = infoPath p then none else some q
  | .cutoff _, q => some q
  | .chain outer inner, q =>
    match unapplyPath outer q with
    | some r => unapplyPath inner r
    | none => none
/-- Workspace members: a change is routed back to the nested filter whose
mount point it falls under. -/
def unapplyWs : List (String × String × View) → String → Option String
  | [], _ => none
  | (m, _, v) :: rest, q =>
    match strPre (m ++ "/") q with
    | some r => unapplyPath v r
    | none => unapplyWs rest q
end

/-- The (mount_path, nested_spec_text) pairs a view exposes for discovery
(spec section 3, Workspace). -/
def View.prefixes : View → List (String × String)
  | .workspace ws => ws.map (fun e => (e.1, e.2.1))
  | .chain outer inner => View.prefixes outer ++ View.prefixes inner
  | _ => []

/-- The cutoff boundary reference names a view carries. -/
def View.cutoffRefs : View → List String
  | .cutoff r => [r]
  | .chain outer inner => View.cutoffRefs outer ++ View.cutoffRefs inner
  | _ => []

/-! ## ViewMaps

The bidirectional content-keyed cache.  An entry is keyed by the filter
identity (the canonical textual form `viewId`) and a commit id; the
forward map stores (identity, original, filtered), the backward map
stores (identity, filtered, original). -/

/-- One direction of the bidirectional cache. -/
abbrev ViewMaps := List (String × GCommit × GCommit)

/-- Fresh empty cache (`ViewMaps::new()`). -/
def ViewMaps.new : ViewMaps := []

/-- Cache lookup under a filter identity. -/
def vmLookup (m : ViewMaps) (vid : String) (k : GCommit) : Option GCommit :=
  match m with
  | [] => none
  | (v', k', r) :: rest => if v' = vid ∧ k' = k then some r else vmLookup rest vid k

/-! ## Reverse unapplier (spec section 4.3)

`unapply_view` itself is not part of the sources (only its caller is), so
it is modelled from the spec: look up the origin in the backward map,
diff the two filtered trees, route each changed path back to original
coordinates, overlay the result on the origin's tree, and build the new
original commit.  Per the spec's round-trip property, an edit that leaves
the original tree unchanged yields the origin commit itself. -/

/-- Structural difference between two trees: changed or added entries of
`new` plus deletions of paths of `old` that `new` lacks. -/
def treeDiff (old new : TreeT) : List (String × Option String) :=
  (new.filter (fun e => !(old.any (fun e' => e' = e)))).map (fun e => (e.1, some e.2))
    ++ (old.filter (fun e => !(new.any (fun e' => e'.1 = e.1)))).map
        (fun e => (e.1, (none : Option String)))

/-- Apply one change to a tree: set or delete a path. -/
def overlayOne (t : TreeT) (ch : String × Option String) : TreeT :=
  match ch.2 with
  | some c => (ch.1, c) :: t.filter (fun e => !(e.1 = ch.1))
  | none => t.filter (fun e => !(e.1 = ch.1))

/-- Overlay a change list on a base tree (spec section 4.3 step 4). -/
def overlay (chs : List (String × Option String)) (t : TreeT) : TreeT :=
  chs.foldl overlayOne t

/-- Route a filtered-coordinate change list back to original coordinates;
changes on paths the filter does not route back are discarded (spec
section 4.3 step 3). -/
def invertDiff (v : View) (chs : List (String × Option String)) :
    List (String × Option String) :=
  chs.filterMap (fun ch => (unapplyPath v ch.1).map (fun q => (q, ch.2)))

/-- Outcome of the reverse unapplier.  `Failed` stands for the error
outcomes (no known origin in the backward map, or an edit that cannot be
routed back). -/
inductive UnapplyView where
  | Done : GCommit → UnapplyView
  | Failed : UnapplyView
  deriving DecidableEq

/-- Modelled from the spec: the reverse unapplier of section 4.3.  The
backward map gives the origin of `old`; the user's edit `old → new` is
expressed in filtered paths, routed back, and overlaid on the origin's
tree.  When the overlay leaves the origin's tree unchanged the origin
commit itself is returned (round-trip property of spec section 8);
otherwise a new original commit is built with the origin as parent and
`new`'s metadata (spec section 4.3 step 5). -/
def unapply_view (bm : ViewMaps) (v : View) (old new : GCommit) : UnapplyView :=
  match vmLookup bm (viewId v) old with
  | none => .Failed
  | some oldOrig =>
    let chs := treeDiff (GCommit.tree old) (GCommit.tree new)
    let inv := invertDiff v chs
    let nt := overlay inv (GCommit.tree oldOrig)
    if nt = GCommit.tree oldOrig then .Done oldOrig
    else .Done (.mk nt [oldOrig] (GCommit.meta new))

/-! ## Basic lemmas for the round trip -/

theorem filter_eq_nil_of_false {α : Type} (l : List α) (p : α → Bool)
    (h : ∀ e ∈ l, p e = false) : l.filter p = [] := by
  induction l with
  | nil => rfl
  | cons x xs ih =>
    have hx := h x (List.mem_cons_self x xs)
    rw [List.filter_cons, hx]
    simp only [Bool.false_eq_true, if_false]
    exact ih (fun e he => h e (List.mem_cons_of_mem x he))

theorem treeDiff_self (t : TreeT) : treeDiff t t = [] := by
  have h1 : t.filter (fun e => !(t.any (fun e' => e' = e))) = [] :=
    filter_eq_nil_of_false _ _ (fun e he => by
      show (!(t.any (fun e' => decide (e' = e)))) = false
      rw [List.any_eq_true.mpr ⟨e, he, by simp⟩]
      rfl)
  have h2 : t.filter (fun e => !(t.any (fun e' => e'.1 = e.1))) = [] :=
    filter_eq_nil_of_false _ _ (fun e he => by
      show (!(t.any (fun e' => decide (e'.1 = e.1)))) = false
      rw [List.any_eq_true.mpr ⟨e, he, by simp⟩]
      rfl)
  unfold treeDiff
  rw [h1, h2]
  rfl

theorem overlay_nil (t : TreeT) : overlay [] t = t := rfl

theorem invertDiff_nil (v : View) : invertDiff v [] = [] := rfl

/-! ## Object store and references

The object store is an external collaborator (spec section 1); only its
reference table matters here.  Reference names are full names; resolution
of a short revision expression tries the literal name, then `refs/NAME`,
then `refs/heads/NAME`, the relevant subset of git's resolution order
used by `revparse_ext` / `revparse_single`. -/

/-- The reference table of the repository. -/
structure Repo where
  refs : List (String × GCommit)

/-- First binding of a name in a reference table. -/
def lookupRefList : List (String × GCommit) → String → Option GCommit
  | [], _ => none
  | e :: rest, n => if e.1 = n then some e.2 else lookupRefList rest n

/-- Drop every binding of a name from a reference table. -/
def removeName (n : String) : List (String × GCommit) → List (String × GCommit)
  | [] => []
  | e :: rest => if e.1 = n then removeName n rest else e :: removeName n rest

/-- Number of bindings of a name in a reference table. -/
def countName (n : String) : List (String × GCommit) → Nat
  | [] => 0
  | e :: rest => (if e.1 = n then 1 else 0) + countName n rest

/-- Look up a reference by its exact full name. -/
def lookupRef (r : Repo) (n : String) : Option GCommit :=
  lookupRefList r.refs n

/-- Resolve a revision expression to (full reference name, commit): models
`revparse_ext`; `revparse_single` is this followed by `.2`. -/
def resolveRef (r : Repo) (n : String) : Option (String × GCommit) :=
  match lookupRef r n with
  | some c => some (n, c)
  | none =>
    match lookupRef r ("refs/" ++ n) with
    | some c => some ("refs/" ++ n, c)
    | none =>
      match lookupRef r ("refs/heads/" ++ n) with
      | some c => some ("refs/heads/" ++ n, c)
      | none => none

/-- Atomic force-update of a reference: the old binding, if any, is
replaced, never appended to. -/
def setRef (r : Repo) (n : String) (c : GCommit) : Repo :=
  ⟨(n, c) :: removeName n r.refs⟩

mutual
/-- Reachability in the commit graph: `reachB root c` holds when `c` is
`root` or an ancestor of `root`. -/
def reachB : GCommit → GCommit → Bool
  | .mk t ps m, c => decide (GCommit.mk t ps m = c) || reachListB ps c
/-- Reachability from any commit of a list. -/
def reachListB : List GCommit → GCommit → Bool
  | [], _ => false
  | r :: rs, c => reachB r c || reachListB rs c
end

/-- A commit lies on an active `Cutoff` boundary of the view: it is
reachable from some cutoff reference, hence is treated as a root (spec
section 3, Cutoff). -/
def inCutoff (r : Repo) (v : View) (c : GCommit) : Bool :=
  (View.cutoffRefs v).any (fun nm =>
    match resolveRef r nm with
    | some x => reachB x.2 c
    | none => false)

/-! ## Forward applier (spec section 4.2)

`apply_view_to_refs` is not part of the sources (only its caller is), so
it is modelled from the spec: each source commit's ancestry is filtered
in dependency order, a single-parent commit whose filtered tree equals
its filtered parent's tree is elided, cutoff boundaries become roots, the
two cache maps grow with every visited commit, and each target reference
is force-updated to the filtered head.  Filtering a commit is a pure
function of its content, so the cache is consulted only for its growth
(determinism invariant of spec section 3). -/

mutual
/-- Filter one commit: filtered tree, remapped (or elided) parents. -/
def filterCommit (r : Repo) (v : View) : GCommit → GCommit
  | .mk t ps m =>
    let ft := applyView v t
    let fps := if inCutoff r v (.mk t ps m) then [] else filterParents r v ps
    match fps with
    | [p] => if GCommit.tree p = ft then p else .mk ft fps m
    | _ => .mk ft fps m
/-- Filter a parent list in order. -/
def filterParents (r : Repo) (v : View) : List GCommit → List GCommit
  | [] => []
  | c :: cs => filterCommit r v c :: filterParents r v cs
end

mutual
/-- The (original, filtered) pairs recorded while walking a commit's
ancestry (stopping at cutoff boundaries). -/
def mapsOf (r : Repo) (v : View) : GCommit → List (GCommit × GCommit)
  | .mk t ps m =>
    (GCommit.mk t ps m, filterCommit r v (.mk t ps m)) ::
      (if inCutoff r v (.mk t ps m) then [] else mapsOfList r v ps)
/-- Pairs collected over a parent list. -/
def mapsOfList (r : Repo) (v : View) : List GCommit → List (GCommit × GCommit)
  | [] => []
  | c :: cs => mapsOf r v c ++ mapsOfList r v cs
end

/-- Modelled from the spec: `apply_view_to_refs` (spec section 4.2).  For
each (resolved source name, target name) pair: read the source commit,
filter its ancestry, append both cache directions, force-update the
target.  A pair whose source does not resolve is a failure for that pair
(spec section 4.2, result) and leaves no trace; the binary always passes
an already-resolved full name.  Also returns the log of reference writes
performed, in order. -/
def apply_view_to_refs (r : Repo) (v : View) (pairs : List (String × String))
    (fm bm : ViewMaps) : Repo × ViewMaps × ViewMaps × List (String × GCommit) :=
  match pairs with
  | [] => (r, fm, bm, [])
  | (srcName, tgt) :: rest =>
    match lookupRef r srcName with
    | none => apply_view_to_refs r v rest fm bm
    | some c =>
      let st := apply_view_to_refs (setRef r tgt (filterCommit r v c)) v rest
        (fm ++ (mapsOf r v c).map (fun e => (viewId v, e.1, e.2)))
        (bm ++ (mapsOf r v c).map (fun e => (viewId v, e.2, e.1)))
      (st.1, st.2.1, st.2.2.1, (tgt, filterCommit r v c) :: st.2.2.2)

/-! ## Spec parser (spec section 4.1)

`build_view` is not part of the sources (only its caller is); it is
modelled from the spec: a filter expression is a sequence of
colon-prefixed `op=value` segments composing left-to-right into `chain`
nodes, outermost last.  The `workspace` operator's value grammar is left
unspecified by the spec and is not modelled; no claim exercises it. -/

/-- Look up `key=value` in a list of `key=value` character lists. -/
def kvLookup (key : List Char) : List (List Char) → Option (List Char)
  | [] => none
  | kv :: rest =>
    let (k, v?) := splitn2 '=' kv
    if k = key then
      match v? with
      | some v => some v
      | none => none
    else kvLookup key rest

/-- Parse the value of an `info` operator:
`prefix,commit=#sha1,tree=#tree,src=REF,view=SPEC` (spec section 6).  The
node keeps the mount prefix, source ref and nested view text (spec
section 3, Info); the `commit`/`tree` placeholder fields are carried in
the textual form only. -/
def parseInfo (v : List Char) : Option View :=
  match splitChar ',' v with
  | [] => none
  | p :: kvs =>
    match kvLookup "src".data kvs, kvLookup "view".data kvs with
    | some s, some vw => some (.info (String.mk p) (String.mk s) (String.mk vw))
    | _, _ => none

/-- Parse one operator segment (the text between colons). -/
def parseOp (seg : List Char) : Option View :=
  let (nm, v?) := splitn2 '=' seg
  match v? with
  | some v =>
    if nm = "subdir".data then some (.subdir (String.mk v))
    else if nm = "prefix".data then some (.pfx (String.mk v))
    else if nm = "cutoff".data then some (.cutoff (String.mk v))
    else if nm = "info".data then parseInfo v
    else none
  | none => none

/-- Compose parsed segments left-to-right, outermost last: the segment
already parsed is the inner (applied-first) side of each new chain. -/
def parseSegsAcc (acc : View) : List (List Char) → Option View
  | [] => some acc
  | seg :: rest =>
    match parseOp seg with
    | none => none
    | some v => parseSegsAcc (.chain v acc) rest

/-- Parse a non-empty segment sequence. -/
def parseSegs : List (List Char) → Option View
  | [] => none
  | seg :: rest =>
    match parseOp seg with
    | none => none
    | some v => parseSegsAcc v rest

/-- Modelled from the spec: `build_view` (spec section 4.1).  The
repository argument mirrors the real signature (cutoff references stay
textual in the node, per spec section 3, so it is unused).  `none` is the
parse-failure outcome. -/
def build_view (_r : Repo) (s : String) : Option View :=
  match s.data with
  | [] => none
  | c :: rest => if c = ':' then parseSegs (splitChar ':' rest) else none

/-- Modelled from the spec: `build_chain` applies its first argument
first, then its second — the binary chains `viewobj` then an `info` view
(which annotates the filtered output) and a `cutoff` then `viewobj`
(squash applies the cutoff before the chain, spec section 4.2).  In the
spec's `Chain(outer, inner)` orientation the first argument is the inner
node. -/
def build_chain (a b : View) : View := .chain b a

/-! ## The josh-filter binary: `run_filter` (src/bin/josh-filter.rs) -/

/-- Escaping of the nested view text in the info spec string
(line 83 of the source): `:` becomes `<colon>`, then `,` becomes
`<comma>`. -/
def escapeView (v : String) : String :=
  strRepl ',' "<comma>" (strRepl ':' "<colon>" v)

/-- The info spec string built for one (mount path, nested spec) pair
(lines 80-84 of the source). -/
def infoViewStr (p src v : String) : String :=
  ":info=" ++ p ++ ",commit=#sha1,tree=#tree,src=" ++ src ++ ",view=" ++ escapeView v

/-- The `infofile` loop (lines 73-88 of the source): for every pair of
`prefixes()`, chain an info view built from `infoViewStr` onto the
accumulated view.  `none` models a `build_view` failure. -/
def infofileExtend (r : Repo) (v : View) (src0 : String) :
    List (String × String) → Option View
  | [] => some v
  | pv :: rest =>
    match build_view r (infoViewStr pv.1 src0 pv.2) with
    | none => none
    | some iv => infofileExtend r (build_chain v iv) src0 rest

/-- Build the effective view object of one entry (lines 69-97 of the
source): parse the spec text, then the `infofile` extension, then the
`squash` chain placing a cutoff at the raw source position before the
chain. -/
def mkViewObj (r : Repo) (squash infofile : Bool) (src0 viewstr : String) :
    Option View :=
  match build_view r viewstr with
  | none => none
  | some v0 =>
    match (if infofile then infofileExtend r v0 src0 (View.prefixes v0) else some v0) with
    | none => none
    | some v1 =>
      if squash then
        match build_view r (":cutoff=" ++ src0) with
        | none => none
        | some cv => some (build_chain cv v1)
      else some v1

/-- Command-line flags and positional arguments of the binary. -/
structure Flags where
  file : Option String
  from_to : Option String
  spec : Option String
  squash : Bool
  reverse : Bool
  infofile : Bool

/-- The spec text processed by the run (lines 46-52 of the source): the
`--file` contents when the file argument is present and readable,
otherwise the inline form built from the positional arguments.  `fs`
models `read_to_string`: the readable files. -/
def computeFilestr (fl : Flags) (fs : String → Option String) : String :=
  match fl.file with
  | some f =>
    match fs f with
    | some content => content
    | none => "[" ++ fl.from_to.getD "" ++ "]" ++ fl.spec.getD ""
  | none => "[" ++ fl.from_to.getD "" ++ "]" ++ fl.spec.getD ""

/-! ### FILE_REGEX

The source iterates the matches of `\[(?P<src>.*)\](?P<spec>[^\[]*)`
over the file string.  `.` does not match a newline, so the bracketed
source part is the span up to the last `]` on the same line, while the
spec part runs to the next `[`.  The scanner below implements that match
behaviour directly. -/

/-- Drop characters up to and including the first `[`. -/
def skipToLB : List Char → Option (List Char)
  | [] => none
  | c :: cs => if c = '[' then some cs else skipToLB cs

/-- Split at the first newline: (line, rest starting with the newline). -/
def splitLine : List Char → List Char × List Char
  | [] => ([], [])
  | c :: rest =>
    if c = '\n' then ([], c :: rest)
    else
      let (a, b) := splitLine rest
      (c :: a, b)

/-- Split at the last `]`: (before, after), `none` when there is none. -/
def splitLastRB : List Char → Option (List Char × List Char)
  | [] => none
  | c :: rest =>
    match splitLastRB rest with
    | some (a, b) => some (c :: a, b)
    | none => if c = ']' then some ([], rest) else none

/-- Take characters up to the next `[` (exclusive): (spec, rest). -/
def takeSpec : List Char → List Char × List Char
  | [] => ([], [])
  | c :: rest =>
    if c = '[' then ([], c :: rest)
    else
      let (a, b) := takeSpec rest
      (c :: a, b)

/-- Successive non-overlapping FILE_REGEX matches, producing the raw
(src, spec) capture pairs. -/
def findBlocksAux : Nat → List Char → List (String × String)
  | 0, _ => []
  | Nat.succ fuel, cs =>
    match skipToLB cs with
    | none => []
    | some afterLB =>
      let (line, lineRest) := splitLine afterLB
      match splitLastRB line with
      | none => findBlocksAux fuel afterLB
      | some (src, afterRBinLine) =>
        let (spc, rest) := takeSpec (afterRBinLine ++ lineRest)
        (String.mk src, String.mk spc) :: findBlocksAux fuel rest

/-- All FILE_REGEX capture pairs of a file string. -/
def findBlocks (cs : List Char) : List (String × String) :=
  findBlocksAux cs.length cs

/-! ### The per-entry loop body and the run -/

/-- One forward/backward cache snapshot around an `apply_view_to_refs`
call. -/
structure CallRec where
  fmIn : ViewMaps
  bmIn : ViewMaps
  fmOut : ViewMaps
  bmOut : ViewMaps
  deriving DecidableEq

/-- Observable trace of an entry: cache snapshots of the apply calls made,
the reference writes performed, and the (old, new, outcome) records of the
`unapply_view` calls made, in order. -/
structure EntryTrace where
  calls : List CallRec
  writes : List (String × GCommit)
  unapplies : List (GCommit × GCommit × UnapplyView)

/-- Result of processing one spec entry: a panic (an `expect`/`unwrap`
firing aborts the process), the `return 1` of a failed reverse
operation, or the state carried to the next entry. -/
inductive EntryResult where
  | panicked : String → EntryResult
  | exitOne : EntryResult
  | ok : Repo → ViewMaps → ViewMaps → EntryResult

/-- The part of the loop body after the forward applier has run (lines
115-129 of the source): in reverse mode read the new side from the
target, the old side back from `JOSH_TMP` (panicking if either `unwrap`
fires), and unapply — force-updating the source on `Done` and returning
1 otherwise; in forward mode the entry is complete.  `st` is the state
`(repo, forward map, backward map, write log)` the applier returned. -/
def runEntryPost : Bool → String → View → String → ViewMaps → ViewMaps →
    Repo × ViewMaps × ViewMaps × List (String × GCommit) → EntryResult × EntryTrace
  | true, target, viewobj, srcFull, fm, bm, st =>
    (match resolveRef st.1 target with
    | none =>
      (.panicked "called unwrap on a None value",
        ⟨[⟨fm, bm, st.2.1, st.2.2.1⟩], st.2.2.2, []⟩)
    | some (_, newC) =>
      match resolveRef st.1 "JOSH_TMP" with
      | none =>
        (.panicked "called unwrap on a None value",
          ⟨[⟨fm, bm, st.2.1, st.2.2.1⟩], st.2.2.2, []⟩)
      | some (_, oldC) =>
        match unapply_view st.2.2.1 viewobj oldC newC with
        | .Done rw =>
          (.ok (setRef st.1 srcFull rw) st.2.1 st.2.2.1,
            ⟨[⟨fm, bm, st.2.1, st.2.2.1⟩], st.2.2.2 ++ [(srcFull, rw)],
              [(oldC, newC, .Done rw)]⟩)
        | .Failed =>
          (.exitOne,
            ⟨[⟨fm, bm, st.2.1, st.2.2.1⟩], st.2.2.2, [(oldC, newC, .Failed)]⟩))
  | false, _, _, _, fm, bm, st =>
    (.ok st.1 st.2.1 st.2.2.1, ⟨[⟨fm, bm, st.2.1, st.2.2.1⟩], st.2.2.2, []⟩)

/-- The forward target of the applier call: the fixed temporary reference
in reverse mode, the user's target otherwise (lines 99-103 of the
source). -/
def fwdTarget : Bool → String → String
  | true, _ => "refs/JOSH_TMP"
  | false, target => target

/-- The loop body of `run_filter` (lines 54-129 of the source) for one
capture pair: trim and split `from_to` (panicking without a `:`), build
the view object, pick `refs/JOSH_TMP` as forward target in reverse mode,
resolve the source (panicking when it does not resolve), run the forward
applier, and finish with `runEntryPost`. -/
def runEntry (fl : Flags) (r : Repo) (fm bm : ViewMaps) (e : String × String) :
    EntryResult × EntryTrace :=
  match splitn2 ':' (strTrim e.1).data with
  | (_, none) => (.panicked "from_to must contain \":\"", ⟨[], [], []⟩)
  | (s0, some tgt) =>
    match mkViewObj r fl.squash fl.infofile (String.mk s0) (strTrim e.2) with
    | none => (.panicked "parse error", ⟨[], [], []⟩)
    | some viewobj =>
      match resolveRef r (String.mk s0) with
      | none => (.panicked "reference not found 1", ⟨[], [], []⟩)
      | some (srcFull, _) =>
        runEntryPost fl.reverse (String.mk tgt) viewobj srcFull fm bm
          (apply_view_to_refs r viewobj
            [(srcFull, fwdTarget fl.reverse (String.mk tgt))] fm bm)

/-- Outcome of a whole invocation: a panic, or `exit(code)`. -/
inductive RunResult where
  | panicked : String → RunResult
  | exit : Nat → RunResult

/-- The entry loop of `run_filter`: entries share the repository state
and the two cache maps; a panic aborts, a failed reverse returns 1, and
the loop falling through returns 0 (lines 54-132 of the source). -/
def runEntries (fl : Flags) (r : Repo) (fm bm : ViewMaps) :
    List (String × String) → RunResult × EntryTrace
  | [] => (.exit 0, ⟨[], [], []⟩)
  | e :: rest =>
    match runEntry fl r fm bm e with
    | (.panicked m, tr) => (.panicked m, tr)
    | (.exitOne, tr) => (.exit 1, tr)
    | (.ok r' fm' bm', tr) =>
      let (res, tr') := runEntries fl r' fm' bm' rest
      (res, ⟨tr.calls ++ tr'.calls, tr.writes ++ tr'.writes, tr.unapplies ++ tr'.unapplies⟩)

/-- The whole of `run_filter` (lines 27-133 of the source): two fresh
empty ViewMaps, the spec text from `--file` or the inline arguments, and
the entry loop over the FILE_REGEX captures. -/
def run_filter (fl : Flags) (fs : String → Option String) (r : Repo) :
    RunResult × EntryTrace :=
  runEntries fl r ViewMaps.new ViewMaps.new (findBlocks (computeFilestr fl fs).data)

/-! ## Concrete objects shared by the witnesses and counterexamples -/

/-- A concrete original commit with content inside and outside `lib/`. -/
def origC : GCommit := .mk [("lib/a.txt", "hello"), ("other/b.txt", "bye")] [] "m0"

/-- Its image under `:subdir=lib`. -/
def filtC : GCommit := .mk [("a.txt", "hello")] [] "m0"

/-- A user-edited filtered commit (`a.txt` changed to "world"). -/
def editC : GCommit := .mk [("a.txt", "world")] [] "me"

/-- A repository with one branch. -/
def repoW : Repo := ⟨[("refs/heads/master", origC)]⟩

/-- A repository with the original branch and the user-edited filtered
branch. -/
def repoW2 : Repo := ⟨[("refs/heads/master", origC), ("refs/heads/edited", editC)]⟩

/-- Flags of a plain reverse run. -/
def flagsRev : Flags := ⟨none, none, none, false, true, false⟩

/-! ## Claim C1 -/

/-- C1: Round-trip.  For every original commit `C` that the forward
applier has filtered to `F` — so `F` is present in the backward map,
mapping to `C` — calling `unapply_view` with `old = F` and `new = F` (no
user edit) returns `Done C`, the original commit unchanged. -/
theorem c1_unapply_roundtrip (bm : ViewMaps) (v : View) (F C : GCommit)
    (h : vmLookup bm (viewId v) F = some C) :
    unapply_view bm v F F = UnapplyView.Done C := by
  unfold unapply_view
  rw [h]
  simp [treeDiff_self, invertDiff, overlay]

/-- Witness for C1: a concrete backward-map entry produced by filtering
`origC` with `:subdir=lib` to `filtC`, unapplied with no edit. -/
theorem c1_unapply_roundtrip_witness :
    vmLookup [(viewId (View.subdir "lib"), filtC, origC)] (viewId (View.subdir "lib")) filtC
      = some origC ∧
    unapply_view [(viewId (View.subdir "lib"), filtC, origC)] (View.subdir "lib") filtC filtC
      = UnapplyView.Done origC :=
  ⟨rfl, c1_unapply_roundtrip _ _ _ _ rfl⟩

/-! ## Claim C2 -/

/-- C2 counterexample: the claim says a spec entry whose `source:target`
portion lacks the `:` separator is rejected "with a reported parse error
rather than a panic".  On the inline malformed spec `subdir=lib` the
invocation instead panics — the `expect` on the second piece of
`splitn(2, ":")` fires with the message below (lines 62-65 of the
source); there is no non-panic parse-error outcome. -/
theorem c2_counterexample :
    run_filter ⟨none, some "subdir=lib", none, false, false, false⟩ (fun _ => none) ⟨[]⟩
      = (.panicked "from_to must contain \":\"", ⟨[], [], []⟩) := rfl

/-- C2 amended: a spec entry whose trimmed `from_to` portion lacks the
`:` separator makes the run panic with the `expect` message
`from_to must contain ":"` (not a recoverable parse error), and the panic
fires before any reference update: the entry performs zero reference
writes and zero apply calls. -/
theorem c2_missing_colon_panics (fl : Flags) (r : Repo) (fm bm : ViewMaps)
    (e : String × String) (s0 : List Char)
    (h : splitn2 ':' (strTrim e.1).data = (s0, none)) :
    runEntry fl r fm bm e = (.panicked "from_to must contain \":\"", ⟨[], [], []⟩) := by
  unfold runEntry
  rw [h]

/-- Witness for C2 at the inline malformed spec of the scenario. -/
theorem c2_missing_colon_panics_witness :
    splitn2 ':' (strTrim "subdir=lib").data = ("subdir=lib".data, none) ∧
    runEntry ⟨none, none, none, false, false, false⟩ ⟨[]⟩ [] [] ("subdir=lib", "")
      = (.panicked "from_to must contain \":\"", ⟨[], [], []⟩) :=
  ⟨by decide,
    c2_missing_colon_panics ⟨none, none, none, false, false, false⟩ ⟨[]⟩ [] []
      ("subdir=lib", "") "subdir=lib".data (by decide)⟩

/-! ## Claim C3 -/

/-- C3 counterexample: the claim says an unresolvable source reference of
one entry of a multi-entry spec file aborts only that entry and the
remaining entries still proceed.  On a concrete two-entry spec file whose
first entry names the missing `refs/heads/missing`, the `expect` at line
106 of the source panics: the whole process aborts, the second entry is
never processed and zero references are updated (`refs/t2` is never
written). -/
theorem c3_counterexample :
    run_filter ⟨some "specfile", none, none, false, false, false⟩
      (fun n => if n = "specfile"
        then some ("[refs/heads/missing:refs/t1]:subdir=lib\n"
          ++ "[refs/heads/master:refs/t2]:subdir=lib")
        else none)
      repoW
      = (.panicked "reference not found 1", ⟨[], [], []⟩) := rfl

/-- C3 amended: when the source reference of an entry does not resolve,
the run panics with the `expect` message `reference not found 1`; the
whole process aborts, so the remaining entries of the spec file are not
processed and no reference is written from the failing entry on. -/
theorem c3_resolution_panics (fl : Flags) (r : Repo) (fm bm : ViewMaps)
    (e : String × String) (rest : List (String × String))
    (s0 tgt : List Char) (v : View)
    (h1 : splitn2 ':' (strTrim e.1).data = (s0, some tgt))
    (h2 : mkViewObj r fl.squash fl.infofile (String.mk s0) (strTrim e.2) = some v)
    (h3 : resolveRef r (String.mk s0) = none) :
    runEntries fl r fm bm (e :: rest) = (.panicked "reference not found 1", ⟨[], [], []⟩) := by
  unfold runEntries runEntry
  simp only [h1, h2, h3]

/-- Witness for C3: the first entry of the two-entry scenario, with a
second entry following. -/
theorem c3_resolution_panics_witness :
    splitn2 ':' (strTrim "refs/heads/missing:refs/t1").data
      = ("refs/heads/missing".data, some "refs/t1".data) ∧
    mkViewObj repoW false false "refs/heads/missing" ":subdir=lib"
      = some (View.subdir "lib") ∧
    resolveRef repoW "refs/heads/missing" = none ∧
    runEntries ⟨some "specfile", none, none, false, false, false⟩ repoW [] []
        [("refs/heads/missing:refs/t1", ":subdir=lib"),
         ("refs/heads/master:refs/t2", ":subdir=lib")]
      = (.panicked "reference not found 1", ⟨[], [], []⟩) :=
  ⟨by decide, rfl, by decide,
    c3_resolution_panics ⟨some "specfile", none, none, false, false, false⟩ repoW [] []
      ("refs/heads/missing:refs/t1", ":subdir=lib")
      [("refs/heads/master:refs/t2", ":subdir=lib")]
      "refs/heads/missing".data "refs/t1".data (View.subdir "lib")
      (by decide) rfl (by decide)⟩

/-! ## Supporting lemmas about the reference store and the applier -/

theorem resolveRef_lookup (r : Repo) (n fn : String) (c : GCommit)
    (h : resolveRef r n = some (fn, c)) : lookupRef r fn = some c := by
  unfold resolveRef at h
  split at h
  · simp only [Option.some.injEq, Prod.mk.injEq] at h
    obtain ⟨hf, hc⟩ := h
    subst hf; subst hc; assumption
  · split at h
    · simp only [Option.some.injEq, Prod.mk.injEq] at h
      obtain ⟨hf, hc⟩ := h
      subst hf; subst hc; assumption
    · split at h
      · simp only [Option.some.injEq, Prod.mk.injEq] at h
        obtain ⟨hf, hc⟩ := h
        subst hf; subst hc; assumption
      · cases h

theorem lookupRefList_removeName (l : List (String × GCommit)) (n m : String)
    (hm : ¬ m = n) : lookupRefList (removeName n l) m = lookupRefList l m := by
  induction l with
  | nil => rfl
  | cons x xs ih =>
    simp only [removeName, lookupRefList]
    by_cases hx : x.1 = n
    · rw [if_pos hx, ih, if_neg (fun hc => hm (hc.symm.trans hx))]
    · rw [if_neg hx]
      simp only [lookupRefList]
      by_cases hxm : x.1 = m
      · rw [if_pos hxm, if_pos hxm]
      · rw [if_neg hxm, if_neg hxm, ih]

theorem lookupRef_setRef (r : Repo) (n m : String) (c : GCommit) :
    lookupRef (setRef r n c) m = if m = n then some c else lookupRef r m := by
  unfold lookupRef setRef
  simp only [lookupRefList]
  by_cases hm : m = n
  · rw [if_pos hm.symm, if_pos hm]
  · rw [if_neg (fun hc => hm hc.symm), if_neg hm,
      lookupRefList_removeName r.refs n m hm]

theorem countName_removeName (l : List (String × GCommit)) (n : String) :
    countName n (removeName n l) = 0 := by
  induction l with
  | nil => rfl
  | cons x xs ih =>
    simp only [removeName]
    by_cases hx : x.1 = n
    · rw [if_pos hx]; exact ih
    · rw [if_neg hx]
      simp only [countName]
      rw [if_neg hx, ih]

/-- A force-update leaves exactly one binding of the updated name. -/
theorem setRef_count (r : Repo) (n : String) (c : GCommit) :
    countName n (setRef r n c).refs = 1 := by
  unfold setRef
  simp [countName, countName_removeName]

/-- Unfolding of the forward applier on a single resolvable pair. -/
theorem apply_single (r : Repo) (v : View) (s t : String) (fm bm : ViewMaps) (c : GCommit)
    (h : lookupRef r s = some c) :
    apply_view_to_refs r v [(s, t)] fm bm
      = (setRef r t (filterCommit r v c),
         fm ++ (mapsOf r v c).map (fun e => (viewId v, e.1, e.2)),
         bm ++ (mapsOf r v c).map (fun e => (viewId v, e.2, e.1)),
         [(t, filterCommit r v c)]) := by
  unfold apply_view_to_refs
  simp only [h]
  rfl

/-! ## Claim C4 -/

/-- C4 counterexample: the claim says the engine stages the user's edited
branch under `refs/JOSH_TMP` and reads the new side of the unapply diff
back from it.  In a concrete reverse run the commit staged under
`refs/JOSH_TMP` is `filtC`, the forward-filtered source — not the user's
edited branch `editC` — and the unapply call receives `filtC` (the
`JOSH_TMP` readback) as its old side while its new side `editC` is read
from the target reference, not from `refs/JOSH_TMP`. -/
theorem c4_counterexample :
    (runEntry flagsRev repoW2 [] [] ("master:edited", ":subdir=lib")).2.writes.head?
      = some ("refs/JOSH_TMP", filtC) ∧
    lookupRef repoW2 "refs/heads/edited" = some editC ∧
    (runEntry flagsRev repoW2 [] [] ("master:edited", ":subdir=lib")).2.unapplies.map
        (fun u => (u.1, u.2.1))
      = [(filtC, editC)] ∧
    ¬(editC = filtC) :=
  ⟨rfl, rfl, rfl, by decide⟩

/-- C4 amended: in every reverse run the engine stages the
forward-filtered source commit under the single fixed temporary
reference `refs/JOSH_TMP`, from which the old side of the unapply diff
is read back deterministically (the new side is read from the
user-named target reference); the temporary reference is overwritten
(force-updated), never appended to; and no reference name other than
`refs/JOSH_TMP` and the resolved source is ever written by the entry. -/
theorem c4_reverse_staging (fl : Flags) (r : Repo) (fm bm : ViewMaps)
    (e : String × String) (s0 tgt : List Char) (v : View) (srcFull : String) (c : GCommit)
    (hrev : fl.reverse = true)
    (h1 : splitn2 ':' (strTrim e.1).data = (s0, some tgt))
    (h2 : mkViewObj r fl.squash fl.infofile (String.mk s0) (strTrim e.2) = some v)
    (h3 : resolveRef r (String.mk s0) = some (srcFull, c))
    (h4 : lookupRef r "JOSH_TMP" = none) :
    (∀ w ∈ (runEntry fl r fm bm e).2.writes, w.1 = "refs/JOSH_TMP" ∨ w.1 = srcFull) ∧
    (runEntry fl r fm bm e).2.writes.head? = some ("refs/JOSH_TMP", filterCommit r v c) ∧
    countName "refs/JOSH_TMP" (apply_view_to_refs r v [(srcFull, "refs/JOSH_TMP")] fm bm).1.refs = 1 ∧
    resolveRef (apply_view_to_refs r v [(srcFull, "refs/JOSH_TMP")] fm bm).1 "JOSH_TMP"
      = some ("refs/JOSH_TMP", filterCommit r v c) ∧
    (∀ o nw oc, (o, nw, oc) ∈ (runEntry fl r fm bm e).2.unapplies → o = filterCommit r v c) := by
  have hlk := resolveRef_lookup r (String.mk s0) srcFull c h3
  have hA := apply_single r v srcFull "refs/JOSH_TMP" fm bm c hlk
  have hjt : resolveRef (setRef r "refs/JOSH_TMP" (filterCommit r v c)) "JOSH_TMP"
      = some ("refs/JOSH_TMP", filterCommit r v c) := by
    unfold resolveRef
    rw [lookupRef_setRef, if_neg (by decide), h4]
    have hrr : ("refs/" ++ "JOSH_TMP" : String) = "refs/JOSH_TMP" := rfl
    rw [hrr, lookupRef_setRef, if_pos rfl]
  have hrun : runEntry fl r fm bm e
      = runEntryPost true (String.mk tgt) v srcFull fm bm
          (apply_view_to_refs r v [(srcFull, "refs/JOSH_TMP")] fm bm) := by
    simp only [runEntry, h1, h2, h3, hrev, fwdTarget]
  rw [hrun, hA]
  cases htgt : resolveRef (setRef r "refs/JOSH_TMP" (filterCommit r v c)) (String.mk tgt) with
  | none =>
    simp only [runEntryPost, htgt]
    refine ⟨?_, rfl, setRef_count r "refs/JOSH_TMP" (filterCommit r v c), hjt, ?_⟩
    · intro w hw
      simp only [List.mem_singleton] at hw
      subst hw; left; rfl
    · intro o nw oc hmem; cases hmem
  | some p =>
    obtain ⟨tn, newC⟩ := p
    simp only [runEntryPost, htgt, hjt]
    cases hu : unapply_view (bm ++ (mapsOf r v c).map (fun e => (viewId v, e.2, e.1))) v
        (filterCommit r v c) newC with
    | Done rwc =>
      simp only [hu]
      refine ⟨?_, rfl, setRef_count r "refs/JOSH_TMP" (filterCommit r v c), trivial, ?_⟩
      · intro w hw
        simp only [List.mem_append, List.mem_singleton] at hw
        rcases hw with hw | hw
        · subst hw; left; rfl
        · subst hw; right; rfl
      · intro o nw oc hmem
        simp only [List.mem_singleton, Prod.mk.injEq] at hmem
        exact hmem.1
    | Failed =>
      simp only [hu]
      refine ⟨?_, rfl, setRef_count r "refs/JOSH_TMP" (filterCommit r v c), trivial, ?_⟩
      · intro w hw
        simp only [List.mem_singleton] at hw
        subst hw; left; rfl
      · intro o nw oc hmem
        simp only [List.mem_singleton, Prod.mk.injEq] at hmem
        exact hmem.1

/-- Witness for C4 at the concrete reverse run. -/
theorem c4_reverse_staging_witness :
    (runEntry flagsRev repoW2 [] [] ("master:edited", ":subdir=lib")).2.writes.head?
      = some ("refs/JOSH_TMP", filterCommit repoW2 (View.subdir "lib") origC) ∧
    resolveRef (apply_view_to_refs repoW2 (View.subdir "lib")
        [("refs/heads/master", "refs/JOSH_TMP")] [] []).1 "JOSH_TMP"
      = some ("refs/JOSH_TMP", filterCommit repoW2 (View.subdir "lib") origC) :=
  ⟨(c4_reverse_staging flagsRev repoW2 [] [] ("master:edited", ":subdir=lib")
      "master".data "edited".data (View.subdir "lib") "refs/heads/master" origC
      rfl (by decide) rfl rfl rfl).2.1,
   (c4_reverse_staging flagsRev repoW2 [] [] ("master:edited", ":subdir=lib")
      "master".data "edited".data (View.subdir "lib") "refs/heads/master" origC
      rfl (by decide) rfl rfl rfl).2.2.2.1⟩

/-! ## Claim C5 -/

/-- Completed (non-panicking) runs only exit with code 0 or code 1. -/
theorem runEntries_exit_code (fl : Flags) :
    ∀ (es : List (String × String)) (r : Repo) (fm bm : ViewMaps) (code : Nat),
      (runEntries fl r fm bm es).1 = .exit code → code = 0 ∨ code = 1 := by
  intro es
  induction es with
  | nil =>
    intro r fm bm code h
    simp only [runEntries] at h
    injection h with h'
    left; exact h'.symm
  | cons e rest ih =>
    intro r fm bm code h
    simp only [runEntries] at h
    split at h
    · simp at h
    · injection h with h'
      right; exact h'.symm
    · exact ih _ _ _ code h

/-- C5: `run_filter` returns exit status 0 on success; when a reverse
operation cannot produce a result — `unapply_view` returning any outcome
other than `Done` — and only then, a completed entry yields the specific
failure code 1, the only non-zero exit code a completed run can
produce. -/
theorem c5_exit_codes (fl : Flags) (r : Repo) (fm bm : ViewMaps)
    (e : String × String) (s0 tgt : List Char) (v : View) (srcFull tn onm : String)
    (c newC oldC : GCommit)
    (hrev : fl.reverse = true)
    (h1 : splitn2 ':' (strTrim e.1).data = (s0, some tgt))
    (h2 : mkViewObj r fl.squash fl.infofile (String.mk s0) (strTrim e.2) = some v)
    (h3 : resolveRef r (String.mk s0) = some (srcFull, c))
    (h5 : resolveRef (apply_view_to_refs r v [(srcFull, "refs/JOSH_TMP")] fm bm).1
        (String.mk tgt) = some (tn, newC))
    (h6 : resolveRef (apply_view_to_refs r v [(srcFull, "refs/JOSH_TMP")] fm bm).1
        "JOSH_TMP" = some (onm, oldC)) :
    ((runEntry fl r fm bm e).1 = .exitOne ↔
      ∀ cc, ¬ unapply_view (apply_view_to_refs r v [(srcFull, "refs/JOSH_TMP")] fm bm).2.2.1
          v oldC newC = .Done cc) ∧
    (runEntries fl r fm bm []).1 = .exit 0 ∧
    (∀ es r' fm' bm' code, (runEntries fl r' fm' bm' es).1 = .exit code
      → code = 0 ∨ code = 1) := by
  refine ⟨?_, rfl, fun es r' fm' bm' code h => runEntries_exit_code fl es r' fm' bm' code h⟩
  have hrun : runEntry fl r fm bm e
      = runEntryPost true (String.mk tgt) v srcFull fm bm
          (apply_view_to_refs r v [(srcFull, "refs/JOSH_TMP")] fm bm) := by
    simp only [runEntry, h1, h2, h3, hrev, fwdTarget]
  rw [hrun]
  cases hu : unapply_view (apply_view_to_refs r v [(srcFull, "refs/JOSH_TMP")] fm bm).2.2.1
      v oldC newC with
  | Done cc =>
    simp only [runEntryPost, h5, h6, hu]
    constructor
    · intro hx; cases hx
    · intro hx; exact absurd rfl (hx cc)
  | Failed =>
    simp only [runEntryPost, h5, h6, hu]
    constructor
    · intro _ cc' hcc; cases hcc
    · intro _; trivial

/-- Witness for C5: the concrete reverse run succeeds, so the theorem's
equivalence yields that it does not produce the failure outcome. -/
theorem c5_exit_codes_witness :
    ¬ (runEntry flagsRev repoW2 [] [] ("master:edited", ":subdir=lib")).1
        = EntryResult.exitOne :=
  fun hx =>
    ((c5_exit_codes flagsRev repoW2 [] [] ("master:edited", ":subdir=lib")
        "master".data "edited".data (View.subdir "lib") "refs/heads/master"
        "refs/heads/edited" "refs/JOSH_TMP" origC editC filtC
        rfl (by decide) rfl rfl rfl rfl).1.mp hx
      (GCommit.mk [("lib/a.txt", "world"), ("other/b.txt", "bye")] [origC] "me")) rfl

/-! ## Claim C6 -/

theorem splitChar_not_mem (sep : Char) (l : List Char) (h : sep ∉ l) :
    splitChar sep l = [l] := by
  induction l with
  | nil => rfl
  | cons c cs ih =>
    have hne : ¬ c = sep := fun hce => h (List.mem_cons.mpr (Or.inl hce.symm))
    simp only [splitChar]
    rw [if_neg hne, ih (fun hm => h (List.mem_cons.mpr (Or.inr hm)))]

theorem splitn2_append (sep : Char) (a b : List Char) (h : sep ∉ a) :
    splitn2 sep (a ++ sep :: b) = (a, some b) := by
  induction a with
  | nil => simp [splitn2]
  | cons x xs ih =>
    have hne : ¬ x = sep := fun hce => h (List.mem_cons.mpr (Or.inl hce.symm))
    simp only [List.cons_append, splitn2, List.append_eq]
    rw [if_neg hne, ih (fun hm => h (List.mem_cons.mpr (Or.inr hm)))]

/-- Parsing the squash cutoff spec string yields the cutoff node. -/
theorem build_view_cutoff (r : Repo) (src0 : String) (h : ':' ∉ src0.data) :
    build_view r (":cutoff=" ++ src0) = some (View.cutoff src0) := by
  unfold build_view
  have hd : (":cutoff=" ++ src0).data
      = ':' :: (['c', 'u', 't', 'o', 'f', 'f'] ++ '=' :: src0.data) := by
    rw [String.data_append]
    rfl
  simp only [hd]
  rw [if_pos trivial]
  rw [splitChar_not_mem ':' _ (by
    intro hm
    rcases List.mem_append.mp hm with hm | hm
    · exact absurd hm (by decide)
    · rcases List.mem_cons.mp hm with hm | hm
      · exact absurd hm (by decide)
      · exact h hm)]
  simp only [parseSegs, parseOp,
    splitn2_append '=' ['c', 'u', 't', 'o', 'f', 'f'] src0.data (by decide)]
  rw [if_neg (by decide), if_neg (by decide)]
  rfl

/-- C6: with the squash flag the effective filter chains the cutoff at
the raw source position before the user's chain: the spec string
`:cutoff=src` parses to the cutoff node, `build_chain` places it in the
inner (applied-first) position of the spec's `Chain(outer, inner)`, the
tree transform factors as cutoff first then chain, the cutoff boundary
of the chained view is the source position, and any commit reachable
from the source position is filtered as a root (no filtered
ancestry). -/
theorem c6_squash_cutoff_inner (r : Repo) (src0 : String) (v : View)
    (h : ':' ∉ src0.data) :
    build_view r (":cutoff=" ++ src0) = some (View.cutoff src0) ∧
    build_chain (View.cutoff src0) v = View.chain v (View.cutoff src0) ∧
    (∀ t, applyView (build_chain (View.cutoff src0) v) t
        = applyView v (applyView (View.cutoff src0) t)) ∧
    View.cutoffRefs (build_chain (View.cutoff src0) v) = View.cutoffRefs v ++ [src0] ∧
    (∀ b c fn, resolveRef r src0 = some (fn, b) → reachB b c = true →
      GCommit.parents (filterCommit r (build_chain (View.cutoff src0) v) c) = []) := by
  refine ⟨build_view_cutoff r src0 h, rfl, fun t => rfl, rfl, ?_⟩
  intro b c fn hres hreach
  have hcut : inCutoff r (View.chain v (View.cutoff src0)) c = true := by
    unfold inCutoff
    apply List.any_eq_true.mpr
    refine ⟨src0, ?_, ?_⟩
    · exact List.mem_append.mpr (Or.inr (List.mem_singleton.mpr rfl))
    · simpa [hres] using hreach
  cases c with
  | mk t ps m =>
    simp only [build_chain, filterCommit]
    rw [if_pos hcut]
    rfl

/-- Witness for C6 at the concrete squash position and filter. -/
theorem c6_squash_cutoff_inner_witness :
    build_view repoW (":cutoff=" ++ "refs/heads/master")
      = some (View.cutoff "refs/heads/master") ∧
    applyView (build_chain (View.cutoff "refs/heads/master") (View.subdir "lib"))
        [("lib/a.txt", "x")]
      = applyView (View.subdir "lib")
          (applyView (View.cutoff "refs/heads/master") [("lib/a.txt", "x")]) ∧
    GCommit.parents (filterCommit repoW
        (build_chain (View.cutoff "refs/heads/master") (View.subdir "lib")) origC) = [] :=
  ⟨(c6_squash_cutoff_inner repoW "refs/heads/master" (View.subdir "lib") (by decide)).1,
   (c6_squash_cutoff_inner repoW "refs/heads/master" (View.subdir "lib") (by decide)).2.2.1
     [("lib/a.txt", "x")],
   (c6_squash_cutoff_inner repoW "refs/heads/master" (View.subdir "lib") (by decide)).2.2.2.2
     origC origC "refs/heads/master" rfl (by decide)⟩

/-! ## Claim C7 -/

/-- The cache snapshots of a call list chain from a given initial pair:
every call's input maps are exactly the previous call's output maps, the
first call starting from the given pair.  This is the functional
rendering of "the same two mutable cache objects are passed to every
call". -/
def Chained : ViewMaps × ViewMaps → List CallRec → Prop
  | _, [] => True
  | p, cr :: rest => cr.fmIn = p.1 ∧ cr.bmIn = p.2 ∧ Chained (cr.fmOut, cr.bmOut) rest

/-- The map pair a chained call list ends with. -/
def chainEnd : ViewMaps × ViewMaps → List CallRec → ViewMaps × ViewMaps
  | p, [] => p
  | _, cr :: rest => chainEnd (cr.fmOut, cr.bmOut) rest

theorem Chained_append (l1 : List CallRec) :
    ∀ (p : ViewMaps × ViewMaps) (l2 : List CallRec),
      Chained p l1 → Chained (chainEnd p l1) l2 → Chained p (l1 ++ l2) := by
  induction l1 with
  | nil => intro p l2 _ h2; exact h2
  | cons cr rest ih =>
    intro p l2 h1 h2
    obtain ⟨ha, hb, hc⟩ := h1
    exact ⟨ha, hb, ih (cr.fmOut, cr.bmOut) l2 hc h2⟩

/-- The applier only appends to the two cache maps. -/
theorem apply_grows (v : View) :
    ∀ (pairs : List (String × String)) (r : Repo) (fm bm : ViewMaps),
      (∃ d, (apply_view_to_refs r v pairs fm bm).2.1 = fm ++ d) ∧
      (∃ d, (apply_view_to_refs r v pairs fm bm).2.2.1 = bm ++ d) := by
  intro pairs
  induction pairs with
  | nil =>
    intro r fm bm
    exact ⟨⟨[], (List.append_nil fm).symm⟩, ⟨[], (List.append_nil bm).symm⟩⟩
  | cons pr rest ih =>
    intro r fm bm
    obtain ⟨s, t⟩ := pr
    simp only [apply_view_to_refs]
    cases hl : lookupRef r s with
    | none => exact ih r fm bm
    | some c =>
      obtain ⟨⟨d1, hd1⟩, ⟨d2, hd2⟩⟩ :=
        ih (setRef r t (filterCommit r v c))
          (fm ++ (mapsOf r v c).map (fun e => (viewId v, e.1, e.2)))
          (bm ++ (mapsOf r v c).map (fun e => (viewId v, e.2, e.1)))
      refine ⟨⟨(mapsOf r v c).map (fun e => (viewId v, e.1, e.2)) ++ d1, ?_⟩,
              ⟨(mapsOf r v c).map (fun e => (viewId v, e.2, e.1)) ++ d2, ?_⟩⟩
      · show (apply_view_to_refs (setRef r t (filterCommit r v c)) v rest
            (fm ++ (mapsOf r v c).map (fun e => (viewId v, e.1, e.2)))
            (bm ++ (mapsOf r v c).map (fun e => (viewId v, e.2, e.1)))).2.1 = _
        rw [hd1, List.append_assoc]
      · show (apply_view_to_refs (setRef r t (filterCommit r v c)) v rest
            (fm ++ (mapsOf r v c).map (fun e => (viewId v, e.1, e.2)))
            (bm ++ (mapsOf r v c).map (fun e => (viewId v, e.2, e.1)))).2.2.1 = _
        rw [hd2, List.append_assoc]

/-- An entry makes zero or one apply call; when one is made its input
snapshots are the entry's input maps, its outputs extend them, and a
successful entry hands exactly the call's output maps to the next
entry. -/
theorem runEntry_calls (fl : Flags) (r : Repo) (fm bm : ViewMaps) (e : String × String) :
    ((runEntry fl r fm bm e).2.calls = [] ∧
      ∀ r' f' b', ¬ (runEntry fl r fm bm e).1 = .ok r' f' b') ∨
    (∃ f1 b1, (runEntry fl r fm bm e).2.calls = [⟨fm, bm, f1, b1⟩] ∧
      (∃ d, f1 = fm ++ d) ∧ (∃ d, b1 = bm ++ d) ∧
      ∀ r' f' b', (runEntry fl r fm bm e).1 = .ok r' f' b' → f' = f1 ∧ b' = b1) := by
  unfold runEntry
  split
  · exact Or.inl ⟨rfl, fun r' f' b' hx => by cases hx⟩
  · split
    · exact Or.inl ⟨rfl, fun r' f' b' hx => by cases hx⟩
    · split
      · exact Or.inl ⟨rfl, fun r' f' b' hx => by cases hx⟩
      · rename_i s0 tgt viewobj hmv p hrv
        cases hb : fl.reverse with
        | false =>
          refine Or.inr ⟨_, _, rfl, ?_, ?_, ?_⟩
          · exact (apply_grows _ _ _ _ _).1
          · exact (apply_grows _ _ _ _ _).2
          · intro r' f' b' hx
            simp only [runEntryPost] at hx
            injection hx with hx1 hx2 hx3
            exact ⟨hx2.symm, hx3.symm⟩
        | true =>
          simp only [runEntryPost]
          split
          · refine Or.inr ⟨_, _, rfl, (apply_grows _ _ _ _ _).1,
              (apply_grows _ _ _ _ _).2, ?_⟩
            intro r' f' b' hx; cases hx
          · split
            · refine Or.inr ⟨_, _, rfl, (apply_grows _ _ _ _ _).1,
                (apply_grows _ _ _ _ _).2, ?_⟩
              intro r' f' b' hx; cases hx
            · split
              · refine Or.inr ⟨_, _, rfl, (apply_grows _ _ _ _ _).1,
                  (apply_grows _ _ _ _ _).2, ?_⟩
                intro r' f' b' hx
                injection hx with hx1 hx2 hx3
                exact ⟨hx2.symm, hx3.symm⟩
              · refine Or.inr ⟨_, _, rfl, (apply_grows _ _ _ _ _).1,
                  (apply_grows _ _ _ _ _).2, ?_⟩
                intro r' f' b' hx; cases hx

theorem Chained_nil (p : ViewMaps × ViewMaps) : Chained p [] := trivial

theorem Chained_cons (p : ViewMaps × ViewMaps) (cr : CallRec) (rest : List CallRec) :
    Chained p (cr :: rest)
      ↔ (cr.fmIn = p.1 ∧ cr.bmIn = p.2 ∧ Chained (cr.fmOut, cr.bmOut) rest) :=
  Iff.rfl

/-- The apply calls of a whole entry loop chain from its initial maps. -/
theorem runEntries_chained (fl : Flags) :
    ∀ (es : List (String × String)) (r : Repo) (fm bm : ViewMaps),
      Chained (fm, bm) ((runEntries fl r fm bm es).2.calls) := by
  intro es
  induction es with
  | nil => intro r fm bm; exact Chained_nil _
  | cons e rest ih =>
    intro r fm bm
    simp only [runEntries]
    rcases hre : runEntry fl r fm bm e with ⟨res, tr⟩
    rcases runEntry_calls fl r fm bm e with ⟨hc, hnok⟩ | ⟨f1, b1, hc, _, _, hok⟩ <;>
      rw [hre] at hc
    · cases res with
      | panicked m =>
        show Chained (fm, bm) tr.calls
        replace hc : tr.calls = [] := hc
        rw [hc]; exact Chained_nil _
      | exitOne =>
        show Chained (fm, bm) tr.calls
        replace hc : tr.calls = [] := hc
        rw [hc]; exact Chained_nil _
      | ok r' f' b' =>
        exact absurd (show (runEntry fl r fm bm e).1 = .ok r' f' b' by rw [hre])
          (hnok r' f' b')
    · cases res with
      | panicked m =>
        show Chained (fm, bm) tr.calls
        replace hc : tr.calls = [⟨fm, bm, f1, b1⟩] := hc
        rw [hc]
        exact (Chained_cons _ _ _).mpr ⟨rfl, rfl, Chained_nil _⟩
      | exitOne =>
        show Chained (fm, bm) tr.calls
        replace hc : tr.calls = [⟨fm, bm, f1, b1⟩] := hc
        rw [hc]
        exact (Chained_cons _ _ _).mpr ⟨rfl, rfl, Chained_nil _⟩
      | ok r' f' b' =>
        obtain ⟨hf, hb2⟩ := hok r' f' b' (by rw [hre])
        show Chained (fm, bm) (tr.calls ++ (runEntries fl r' f' b' rest).2.calls)
        replace hc : tr.calls = [⟨fm, bm, f1, b1⟩] := hc
        rw [hc, List.singleton_append]
        refine (Chained_cons _ _ _).mpr ⟨rfl, rfl, ?_⟩
        show Chained (f1, b1) ((runEntries fl r' f' b' rest).2.calls)
        rw [← hf, ← hb2]
        exact ih r' f' b'

/-- Every apply call of a run only extends its input maps. -/
theorem runEntries_growth (fl : Flags) :
    ∀ (es : List (String × String)) (r : Repo) (fm bm : ViewMaps),
      ∀ cr ∈ (runEntries fl r fm bm es).2.calls,
        (∃ d, cr.fmOut = cr.fmIn ++ d) ∧ (∃ d, cr.bmOut = cr.bmIn ++ d) := by
  intro es
  induction es with
  | nil => intro r fm bm cr hcr; cases hcr
  | cons e rest ih =>
    intro r fm bm cr hcr
    simp only [runEntries] at hcr
    rcases hre : runEntry fl r fm bm e with ⟨res, tr⟩
    rcases runEntry_calls fl r fm bm e with ⟨hc, _⟩ | ⟨f1, b1, hc, hg1, hg2, _⟩ <;>
      rw [hre] at hc hcr
    · cases res with
      | panicked m =>
        replace hcr : cr ∈ tr.calls := hcr
        replace hc : tr.calls = [] := hc
        rw [hc] at hcr; cases hcr
      | exitOne =>
        replace hcr : cr ∈ tr.calls := hcr
        replace hc : tr.calls = [] := hc
        rw [hc] at hcr; cases hcr
      | ok r' f' b' =>
        replace hcr : cr ∈ tr.calls ++ (runEntries fl r' f' b' rest).2.calls := hcr
        replace hc : tr.calls = [] := hc
        rw [hc, List.nil_append] at hcr
        exact ih r' f' b' cr hcr
    · cases res with
      | panicked m =>
        replace hcr : cr ∈ tr.calls := hcr
        replace hc : tr.calls = [⟨fm, bm, f1, b1⟩] := hc
        rw [hc] at hcr
        have h := List.mem_singleton.mp hcr
        subst h; exact ⟨hg1, hg2⟩
      | exitOne =>
        replace hcr : cr ∈ tr.calls := hcr
        replace hc : tr.calls = [⟨fm, bm, f1, b1⟩] := hc
        rw [hc] at hcr
        have h := List.mem_singleton.mp hcr
        subst h; exact ⟨hg1, hg2⟩
      | ok r' f' b' =>
        replace hcr : cr ∈ tr.calls ++ (runEntries fl r' f' b' rest).2.calls := hcr
        replace hc : tr.calls = [⟨fm, bm, f1, b1⟩] := hc
        rw [hc, List.singleton_append] at hcr
        rcases List.mem_cons.mp hcr with h | h
        · subst h; exact ⟨hg1, hg2⟩
        · exact ih r' f' b' cr h

/-- C7: the two ViewMaps caches are created empty at the start of the
invocation and threaded through every entry: the first apply call
receives the empty maps, every later call receives exactly the maps the
previous call produced, and each call only appends to them. -/
theorem c7_viewmaps_shared (fl : Flags) (fs : String → Option String) (r : Repo) :
    Chained (ViewMaps.new, ViewMaps.new) ((run_filter fl fs r).2.calls) ∧
    ∀ cr ∈ (run_filter fl fs r).2.calls,
      (∃ d, cr.fmOut = cr.fmIn ++ d) ∧ (∃ d, cr.bmOut = cr.bmIn ++ d) := by
  constructor
  · exact runEntries_chained fl (findBlocks (computeFilestr fl fs).data) r
      ViewMaps.new ViewMaps.new
  · exact runEntries_growth fl (findBlocks (computeFilestr fl fs).data) r
      ViewMaps.new ViewMaps.new

/-- Witness for C7 at a concrete forward run with one entry. -/
theorem c7_viewmaps_shared_witness :
    Chained (ViewMaps.new, ViewMaps.new)
      ((run_filter ⟨none, some "refs/heads/master:refs/t1", some ":subdir=lib",
          false, false, false⟩ (fun _ => none) repoW).2.calls) ∧
    (∃ d, ((run_filter ⟨none, some "refs/heads/master:refs/t1", some ":subdir=lib",
          false, false, false⟩ (fun _ => none) repoW).2.calls.headD
        ⟨[], [], [], []⟩).fmOut
      = ((run_filter ⟨none, some "refs/heads/master:refs/t1", some ":subdir=lib",
          false, false, false⟩ (fun _ => none) repoW).2.calls.headD
        ⟨[], [], [], []⟩).fmIn ++ d) :=
  ⟨(c7_viewmaps_shared ⟨none, some "refs/heads/master:refs/t1", some ":subdir=lib",
      false, false, false⟩ (fun _ => none) repoW).1,
   ((c7_viewmaps_shared ⟨none, some "refs/heads/master:refs/t1", some ":subdir=lib",
      false, false, false⟩ (fun _ => none) repoW).2 _ (by decide)).1⟩

/-! ## Claim C8 -/

/-- The per-character escaping of the nested view text: `:` becomes
`<colon>`, `,` becomes `<comma>`, anything else stays itself. -/
def escChar (c : Char) : List Char :=
  if c = ':' then "<colon>".data else if c = ',' then "<comma>".data else [c]

/-- One-pass characterization of the escaping: concatenation of the
per-character images. -/
def escRun : List Char → List Char
  | [] => []
  | c :: cs => escChar c ++ escRun cs

theorem replChar_append (c : Char) (r : List Char) (a b : List Char) :
    replChar c r (a ++ b) = replChar c r a ++ replChar c r b := by
  induction a with
  | nil => rfl
  | cons x xs ih =>
    simp only [List.cons_append, replChar, List.append_eq]
    by_cases hx : x = c
    · rw [if_pos hx, if_pos hx, ih, List.append_assoc]
    · rw [if_neg hx, if_neg hx, ih]
      rfl

/-- The two sequential replaces of the source equal the one-pass
per-character escaping. -/
theorem escapeView_data (w : String) : (escapeView w).data = escRun w.data := by
  show replChar ',' "<comma>".data (replChar ':' "<colon>".data w.data) = escRun w.data
  induction w.data with
  | nil => rfl
  | cons c cs ih =>
    simp only [replChar, escRun, escChar]
    by_cases h1 : c = ':'
    · rw [if_pos h1, if_pos h1, replChar_append]
      have hfix : replChar ',' "<comma>".data "<colon>".data = "<colon>".data := by decide
      rw [hfix, ih]
    · rw [if_neg h1, if_neg h1]
      by_cases h2 : c = ','
      · rw [if_pos h2]
        simp only [replChar]
        rw [if_pos h2, ih]
      · simp only [replChar]
        rw [if_neg h2, if_neg h2, ih]
        rfl

theorem escChar_no_comma (c : Char) : ',' ∉ escChar c := by
  unfold escChar
  by_cases h1 : c = ':'
  · rw [if_pos h1]; decide
  · rw [if_neg h1]
    by_cases h2 : c = ','
    · rw [if_pos h2]; decide
    · rw [if_neg h2]
      intro hm
      exact h2 (List.mem_singleton.mp hm).symm

theorem escChar_no_colon (c : Char) : ':' ∉ escChar c := by
  unfold escChar
  by_cases h1 : c = ':'
  · rw [if_pos h1]; decide
  · rw [if_neg h1]
    by_cases h2 : c = ','
    · rw [if_pos h2]; decide
    · rw [if_neg h2]
      intro hm
      exact h1 (List.mem_singleton.mp hm).symm

theorem escRun_no_comma (l : List Char) : ',' ∉ escRun l := by
  induction l with
  | nil => intro hm; cases hm
  | cons c cs ih =>
    intro hm
    rcases List.mem_append.mp hm with hm | hm
    · exact escChar_no_comma c hm
    · exact ih hm

theorem escRun_no_colon (l : List Char) : ':' ∉ escRun l := by
  induction l with
  | nil => intro hm; cases hm
  | cons c cs ih =>
    intro hm
    rcases List.mem_append.mp hm with hm | hm
    · exact escChar_no_colon c hm
    · exact ih hm

theorem splitChar_sep_append (sep : Char) (a b : List Char) (h : sep ∉ a) :
    splitChar sep (a ++ sep :: b) = a :: splitChar sep b := by
  induction a with
  | nil => simp [splitChar]
  | cons x xs ih =>
    have hne : ¬ x = sep := fun hce => h (List.mem_cons.mpr (Or.inl hce.symm))
    simp only [List.cons_append, splitChar, List.append_eq]
    rw [if_neg hne, ih (fun hm => h (List.mem_cons.mpr (Or.inr hm)))]

/-- Parsing the info spec string the binary builds yields exactly one
Info node carrying the mount prefix, the raw source and the escaped
nested view text. -/
theorem build_view_info (r : Repo) (p src v : String)
    (hp1 : ':' ∉ p.data) (hp2 : ',' ∉ p.data)
    (hs1 : ':' ∉ src.data) (hs2 : ',' ∉ src.data) :
    build_view r (infoViewStr p src v) = some (View.info p src (escapeView v)) := by
  have hd : (infoViewStr p src v).data
      = ':' :: (['i','n','f','o'] ++ '=' :: (p.data ++ ',' ::
          (['c','o','m','m','i','t','=','#','s','h','a','1'] ++ ',' ::
            (['t','r','e','e','=','#','t','r','e','e'] ++ ',' ::
              ((['s','r','c'] ++ '=' :: src.data) ++ ',' ::
                (['v','i','e','w'] ++ '=' :: (escapeView v).data)))))) := by
    simp [infoViewStr, String.data_append, List.append_assoc]
  have hev_colon : ':' ∉ (escapeView v).data := by
    rw [escapeView_data]; exact escRun_no_colon v.data
  have hev_comma : ',' ∉ (escapeView v).data := by
    rw [escapeView_data]; exact escRun_no_comma v.data
  unfold build_view
  simp only [hd]
  rw [if_pos trivial]
  rw [splitChar_not_mem ':' _ (by
    intro hm
    rcases List.mem_append.mp hm with hm | hm
    · exact absurd hm (by decide)
    · rcases List.mem_cons.mp hm with hm | hm
      · exact absurd hm (by decide)
      · rcases List.mem_append.mp hm with hm | hm
        · exact hp1 hm
        · rcases List.mem_cons.mp hm with hm | hm
          · exact absurd hm (by decide)
          · rcases List.mem_append.mp hm with hm | hm
            · exact absurd hm (by decide)
            · rcases List.mem_cons.mp hm with hm | hm
              · exact absurd hm (by decide)
              · rcases List.mem_append.mp hm with hm | hm
                · exact absurd hm (by decide)
                · rcases List.mem_cons.mp hm with hm | hm
                  · exact absurd hm (by decide)
                  · rcases List.mem_append.mp hm with hm | hm
                    · rcases List.mem_append.mp hm with hm | hm
                      · exact absurd hm (by decide)
                      · rcases List.mem_cons.mp hm with hm | hm
                        · exact absurd hm (by decide)
                        · exact hs1 hm
                    · rcases List.mem_cons.mp hm with hm | hm
                      · exact absurd hm (by decide)
                      · rcases List.mem_append.mp hm with hm | hm
                        · exact absurd hm (by decide)
                        · rcases List.mem_cons.mp hm with hm | hm
                          · exact absurd hm (by decide)
                          · exact hev_colon hm)]
  simp only [parseSegs]
  have hop : parseOp (['i','n','f','o'] ++ '=' :: (p.data ++ ',' ::
      (['c','o','m','m','i','t','=','#','s','h','a','1'] ++ ',' ::
        (['t','r','e','e','=','#','t','r','e','e'] ++ ',' ::
          ((['s','r','c'] ++ '=' :: src.data) ++ ',' ::
            (['v','i','e','w'] ++ '=' :: (escapeView v).data))))))
      = parseInfo (p.data ++ ',' ::
      (['c','o','m','m','i','t','=','#','s','h','a','1'] ++ ',' ::
        (['t','r','e','e','=','#','t','r','e','e'] ++ ',' ::
          ((['s','r','c'] ++ '=' :: src.data) ++ ',' ::
            (['v','i','e','w'] ++ '=' :: (escapeView v).data))))) := by
    unfold parseOp
    simp [splitn2]
  rw [hop]
  have hsplit : splitChar ',' (p.data ++ ',' ::
      (['c','o','m','m','i','t','=','#','s','h','a','1'] ++ ',' ::
        (['t','r','e','e','=','#','t','r','e','e'] ++ ',' ::
          ((['s','r','c'] ++ '=' :: src.data) ++ ',' ::
            (['v','i','e','w'] ++ '=' :: (escapeView v).data)))))
      = [p.data, ['c','o','m','m','i','t','=','#','s','h','a','1'],
         ['t','r','e','e','=','#','t','r','e','e'],
         ['s','r','c'] ++ '=' :: src.data,
         ['v','i','e','w'] ++ '=' :: (escapeView v).data] := by
    rw [splitChar_sep_append ',' p.data _ hp2]
    rw [splitChar_sep_append ',' _ _ (by decide)]
    rw [splitChar_sep_append ',' _ _ (by decide)]
    rw [splitChar_sep_append ',' (['s','r','c'] ++ '=' :: src.data) _ (by
      intro hm
      rcases List.mem_append.mp hm with hm | hm
      · exact absurd hm (by decide)
      · rcases List.mem_cons.mp hm with hm | hm
        · exact absurd hm (by decide)
        · exact hs2 hm)]
    rw [splitChar_not_mem ',' _ (by
      intro hm
      rcases List.mem_append.mp hm with hm | hm
      · exact absurd hm (by decide)
      · rcases List.mem_cons.mp hm with hm | hm
        · exact absurd hm (by decide)
        · exact hev_comma hm)]
  have hksrc : kvLookup "src".data
      [['c','o','m','m','i','t','=','#','s','h','a','1'],
       ['t','r','e','e','=','#','t','r','e','e'],
       ['s','r','c'] ++ '=' :: src.data,
       ['v','i','e','w'] ++ '=' :: (escapeView v).data] = some src.data := by
    simp [kvLookup, splitn2]
  have hkview : kvLookup "view".data
      [['c','o','m','m','i','t','=','#','s','h','a','1'],
       ['t','r','e','e','=','#','t','r','e','e'],
       ['s','r','c'] ++ '=' :: src.data,
       ['v','i','e','w'] ++ '=' :: (escapeView v).data] = some (escapeView v).data := by
    simp [kvLookup, splitn2]
  simp only [parseInfo, hsplit, hksrc, hkview]
  rfl

/-- The infofile loop chains exactly one Info node per exposed pair, in
order, each carrying the pair's mount path, the raw source and the
escaped nested spec text. -/
theorem infofileExtend_fold (r : Repo) (src : String)
    (hs1 : ':' ∉ src.data) (hs2 : ',' ∉ src.data) :
    ∀ (pres : List (String × String)) (v0 : View),
      (∀ pv ∈ pres, ':' ∉ pv.1.data ∧ ',' ∉ pv.1.data) →
      infofileExtend r v0 src pres
        = some (pres.foldl
            (fun acc pv => View.chain (View.info pv.1 src (escapeView pv.2)) acc) v0) := by
  intro pres
  induction pres with
  | nil => intro v0 _; rfl
  | cons pv rest ih =>
    intro v0 hp
    obtain ⟨hp1, hp2⟩ := hp pv (List.mem_cons_self _ _)
    simp only [infofileExtend, List.foldl_cons]
    rw [build_view_info r pv.1 src pv.2 hp1 hp2 hs1 hs2]
    exact ih (build_chain v0 (View.info pv.1 src (escapeView pv.2)))
      (fun pv' h' => hp pv' (List.mem_cons_of_mem _ h'))

/-- C8: with the infofile flag, for every (mount_path, nested_spec_text)
pair exposed by the built view's `prefixes()`, the view is extended by
chaining one Info filter built from the spec string
`:info=<mount>,commit=#sha1,tree=#tree,src=<source>,view=<escaped text>`
— the `commit`/`tree` placeholder fields written literally — where the
escaping replaces every `:` of the nested spec text by `<colon>` and
every `,` by `<comma>`, character by character; each chained Info node
carries exactly the pair's mount path, the source, and the escaped
nested text. -/
theorem c8_infofile_info_chain (r : Repo) (src : String) (v0 : View)
    (pres : List (String × String))
    (hs1 : ':' ∉ src.data) (hs2 : ',' ∉ src.data)
    (hp : ∀ pv ∈ pres, ':' ∉ pv.1.data ∧ ',' ∉ pv.1.data) :
    infofileExtend r v0 src pres
      = some (pres.foldl
          (fun acc pv => View.chain (View.info pv.1 src (escapeView pv.2)) acc) v0) ∧
    (∀ w : String, (escapeView w).data = escRun w.data) ∧
    (∀ p v1, infoViewStr p src v1
      = ":info=" ++ p ++ ",commit=#sha1,tree=#tree,src=" ++ src ++ ",view=" ++ escapeView v1) :=
  ⟨infofileExtend_fold r src hs1 hs2 pres v0 hp, escapeView_data, fun _ _ => rfl⟩

/-- Witness for C8 at a concrete workspace pair. -/
theorem c8_infofile_info_chain_witness :
    infofileExtend repoW (View.subdir "lib") "refs/heads/master" [("lib", ":subdir=lib")]
      = some (View.chain
          (View.info "lib" "refs/heads/master" (escapeView ":subdir=lib"))
          (View.subdir "lib")) ∧
    (escapeView ":a,b").data = escRun ":a,b".data :=
  ⟨(c8_infofile_info_chain repoW "refs/heads/master" (View.subdir "lib")
      [("lib", ":subdir=lib")] (by decide) (by decide) (by decide)).1,
   (c8_infofile_info_chain repoW "refs/heads/master" (View.subdir "lib")
      [("lib", ":subdir=lib")] (by decide) (by decide) (by decide)).2.1 ":a,b"⟩

/-! ## Claim C10 -/

/-- C10: when the `--file` argument names a file that cannot be read,
`run_filter` silently falls back to the inline form
`[<from_to>]<spec>` built from the positional arguments (lines 49-52 of
the source), instead of reporting the unreadable file. -/
theorem c10_file_fallback (fl : Flags) (fs : String → Option String) (f : String)
    (h1 : fl.file = some f) (h2 : fs f = none) :
    computeFilestr fl fs = "[" ++ fl.from_to.getD "" ++ "]" ++ fl.spec.getD "" ∧
    computeFilestr fl fs = computeFilestr ⟨none, fl.from_to, fl.spec, fl.squash, fl.reverse, fl.infofile⟩ fs := by
  unfold computeFilestr
  rw [h1]
  simp only [h2]
  exact ⟨trivial, trivial⟩

/-- Witness for C10: a concrete unreadable file with inline arguments
present. -/
theorem c10_file_fallback_witness :
    computeFilestr ⟨some "spec.josh", some "a:b", some ":subdir=lib", false, false, false⟩
        (fun _ => none)
      = "[a:b]:subdir=lib" ∧
    computeFilestr ⟨some "spec.josh", some "a:b", some ":subdir=lib", false, false, false⟩
        (fun _ => none)
      = computeFilestr ⟨none, some "a:b", some ":subdir=lib", false, false, false⟩
          (fun _ => none) :=
  c10_file_fallback ⟨some "spec.josh", some "a:b", some ":subdir=lib", false, false, false⟩
    (fun _ => none) "spec.josh" rfl rfl

/-! ## Claim C9 -/

/-- C9 counterexample: the claim says the target reference named by the
user is never written in reverse mode.  In a concrete reverse run whose
user-named target is the string `refs/JOSH_TMP` itself, the forward pass
writes exactly that reference: the parsed target of the entry is
`refs/JOSH_TMP` and that name appears in the write log. -/
theorem c9_counterexample :
    (splitn2 ':' (strTrim "refs/heads/master:refs/JOSH_TMP").data).2
      = some "refs/JOSH_TMP".data ∧
    (runEntry flagsRev repoW [] []
        ("refs/heads/master:refs/JOSH_TMP", ":subdir=lib")).2.writes.map Prod.fst
      = ["refs/JOSH_TMP", "refs/heads/master"] ∧
    "refs/JOSH_TMP" ∈ (runEntry flagsRev repoW [] []
        ("refs/heads/master:refs/JOSH_TMP", ":subdir=lib")).2.writes.map Prod.fst :=
  ⟨by decide, rfl, by decide⟩

/-- C9 amended: in reverse mode, when `unapply_view` returns `Done id`,
the entry force-updates the resolved source reference to `id` and the
only other reference it writes is the fixed temporary `refs/JOSH_TMP`
(written by the forward pass); provided the user-named target differs
from both of those names, the target reference is never written and
keeps its prior value. -/
theorem c9_reverse_done_updates_source (fl : Flags) (r : Repo) (fm bm : ViewMaps)
    (e : String × String) (s0 tgt : List Char) (v : View) (srcFull tn onm : String)
    (c newC oldC rwc : GCommit)
    (hrev : fl.reverse = true)
    (h1 : splitn2 ':' (strTrim e.1).data = (s0, some tgt))
    (h2 : mkViewObj r fl.squash fl.infofile (String.mk s0) (strTrim e.2) = some v)
    (h3 : resolveRef r (String.mk s0) = some (srcFull, c))
    (h5 : resolveRef (apply_view_to_refs r v [(srcFull, "refs/JOSH_TMP")] fm bm).1
        (String.mk tgt) = some (tn, newC))
    (h6 : resolveRef (apply_view_to_refs r v [(srcFull, "refs/JOSH_TMP")] fm bm).1
        "JOSH_TMP" = some (onm, oldC))
    (hdone : unapply_view (apply_view_to_refs r v [(srcFull, "refs/JOSH_TMP")] fm bm).2.2.1
        v oldC newC = .Done rwc)
    (ht1 : ¬ String.mk tgt = "refs/JOSH_TMP")
    (ht2 : ¬ String.mk tgt = srcFull) :
    (runEntry fl r fm bm e).1
      = .ok (setRef (apply_view_to_refs r v [(srcFull, "refs/JOSH_TMP")] fm bm).1 srcFull rwc)
          (apply_view_to_refs r v [(srcFull, "refs/JOSH_TMP")] fm bm).2.1
          (apply_view_to_refs r v [(srcFull, "refs/JOSH_TMP")] fm bm).2.2.1 ∧
    (runEntry fl r fm bm e).2.writes
      = [("refs/JOSH_TMP", filterCommit r v c), (srcFull, rwc)] ∧
    lookupRef (setRef (apply_view_to_refs r v [(srcFull, "refs/JOSH_TMP")] fm bm).1
        srcFull rwc) srcFull = some rwc ∧
    lookupRef (setRef (apply_view_to_refs r v [(srcFull, "refs/JOSH_TMP")] fm bm).1
        srcFull rwc) (String.mk tgt) = lookupRef r (String.mk tgt) := by
  have hlk := resolveRef_lookup r (String.mk s0) srcFull c h3
  have hA := apply_single r v srcFull "refs/JOSH_TMP" fm bm c hlk
  have hrun : runEntry fl r fm bm e
      = runEntryPost true (String.mk tgt) v srcFull fm bm
          (apply_view_to_refs r v [(srcFull, "refs/JOSH_TMP")] fm bm) := by
    simp only [runEntry, h1, h2, h3, hrev, fwdTarget]
  rw [hrun]
  simp only [runEntryPost, h5, h6, hdone]
  simp only [hA]
  refine ⟨trivial, rfl, ?_, ?_⟩
  · rw [lookupRef_setRef, if_pos rfl]
  · rw [lookupRef_setRef, if_neg ht2, lookupRef_setRef, if_neg ht1]

/-- Witness for C9 at the concrete reverse run with a distinct target. -/
theorem c9_reverse_done_updates_source_witness :
    (runEntry flagsRev repoW2 [] [] ("master:edited", ":subdir=lib")).2.writes
      = [("refs/JOSH_TMP", filterCommit repoW2 (View.subdir "lib") origC),
         ("refs/heads/master",
          GCommit.mk [("lib/a.txt", "world"), ("other/b.txt", "bye")] [origC] "me")] ∧
    lookupRef (setRef (apply_view_to_refs repoW2 (View.subdir "lib")
        [("refs/heads/master", "refs/JOSH_TMP")] [] []).1 "refs/heads/master"
        (GCommit.mk [("lib/a.txt", "world"), ("other/b.txt", "bye")] [origC] "me"))
      "edited" = lookupRef repoW2 "edited" :=
  ⟨(c9_reverse_done_updates_source flagsRev repoW2 [] [] ("master:edited", ":subdir=lib")
      "master".data "edited".data (View.subdir "lib") "refs/heads/master"
      "refs/heads/edited" "refs/JOSH_TMP" origC editC filtC
      (GCommit.mk [("lib/a.txt", "world"), ("other/b.txt", "bye")] [origC] "me")
      rfl (by decide) rfl rfl rfl rfl rfl (by decide) (by decide)).2.1,
   (c9_reverse_done_updates_source flagsRev repoW2 [] [] ("master:edited", ":subdir=lib")
      "master".data "edited".data (View.subdir "lib") "refs/heads/master"
      "refs/heads/edited" "refs/JOSH_TMP" origC editC filtC
      (GCommit.mk [("lib/a.txt", "world"), ("other/b.txt", "bye")] [origC] "me")
      rfl (by decide) rfl rfl rfl rfl rfl (by decide) (by decide)).2.2.2⟩

end Josh
